import Mathlib

/-
Verification of the image-batch augmentation module
(Exercise 2/cs231n/data_augmentation.py).

Embedding choices:
- An image batch of shape (N, C, H, W) is a nested list over the rationals:
  outermost the N images, then C channels, then H rows, then W samples per row.
  Rationals stand in for the numeric samples; all claims are structural or
  exact-value claims, so no floating-point rounding is involved.
- Randomness is made explicit: each random draw of the source becomes a
  parameter of the embedded function (a unit sample in [0,1) for
  numpy's random_sample/uniform, a bounded natural number for randint,
  a boolean list for the flip mask).  Theorems carry the range facts that
  the numpy primitives guarantee as hypotheses.
- Python slice notation l[a:b] (with omitted or negative endpoints) is
  embedded by pySlice, which normalizes negative endpoints by adding the
  length and clamps into [0, length], exactly as Python sequence slicing
  does.  In particular l[-0:] is l[0:], i.e. the whole axis.
- The module is Python 2 era coursework: the slash on two ints in
  fixed_crops is integer floor division, embedded as Int.fdiv.
- Python asserts and raised ValueErrors are embedded with Except String.
- Each source function f is embedded as f_run, which returns the final
  contents of the input batch X alongside the returned value, threading X
  through every statement of the source body; every assignment in the
  source targets the local variable out, never X, which is what the
  frame claim about the module is about.  The plain f projects out the
  returned value.
-/

namespace DataAug

abbrev Pix := ℚ

/-- Row of W samples. -/
abbrev Row := List Pix

/-- Channel: H rows of W samples. -/
abbrev Chan := List Row

/-- Image: C channels. -/
abbrev Image := List Chan

/-- Batch: N images, the (N, C, H, W) array of the source. -/
abbrev Batch := List Image

/-- Embeds the first component of X.shape. -/
def dimN (X : Batch) : ℕ := X.length

/-- Embeds the second component of X.shape. -/
def dimC (X : Batch) : ℕ := (X.headD []).length

/-- Embeds the third component of X.shape. -/
def dimH (X : Batch) : ℕ := ((X.headD []).headD []).length

/-- Embeds the fourth component of X.shape. -/
def dimW (X : Batch) : ℕ := (((X.headD []).headD []).headD []).length

/-- Shape predicate for a single image: C channels, each of H rows of W samples. -/
def imgHasShape (img : Image) (C H W : ℕ) : Prop :=
  img.length = C ∧ ∀ ch ∈ img, ch.length = H ∧ ∀ row ∈ ch, row.length = W

/-- Shape predicate: X is a well-formed (N, C, H, W) array. -/
def hasShape (X : Batch) (N C H W : ℕ) : Prop :=
  X.length = N ∧ ∀ img ∈ X, imgHasShape img C H W

instance (img : Image) (C H W : ℕ) : Decidable (imgHasShape img C H W) := by
  unfold imgHasShape; infer_instance

instance (X : Batch) (N C H W : ℕ) : Decidable (hasShape X N C H W) := by
  unfold hasShape; infer_instance

/-- Element access X[n, c, h, w], with 0 as default outside the array. -/
def idx (X : Batch) (n c h w : ℕ) : Pix :=
  (((X.getD n ([] : Image)).getD c ([] : Chan)).getD h ([] : Row)).getD w (0 : Pix)

/-- Lower slice endpoint of Python slicing on an axis of length L: an omitted
endpoint means 0, a negative one counts from the end, and the result is
clamped into [0, L]. -/
def normLo (L : ℤ) : Option ℤ → ℤ
  | none => 0
  | some i => if i < 0 then max 0 (i + L) else min i L

/-- Upper slice endpoint of Python slicing on an axis of length L: an omitted
endpoint means L, a negative one counts from the end, and the result is
clamped into [0, L]. -/
def normHi (L : ℤ) : Option ℤ → ℤ
  | none => L
  | some i => if i < 0 then max 0 (i + L) else min i L

/-- Python slice l[a:b]: the elements from position normLo to position
normHi, exactly as Python sequence slicing behaves. -/
def pySlice (a b : Option ℤ) (l : List α) : List α :=
  (l.take (normHi (l.length : ℤ) b).toNat).drop (normLo (l.length : ℤ) a).toNat

/-- Embeds X[:, :, a:b, c:d]: the same spatial window from every image. -/
def sliceHW (a b c d : Option ℤ) (X : Batch) : Batch :=
  X.map (fun img => img.map (fun ch => (pySlice a b ch).map (fun row => pySlice c d row)))

/-- Embeds img[:, :, ::-1]: reverse the order of samples along the width axis,
in every channel and every row of the image. -/
def flipW (img : Image) : Image :=
  img.map (fun ch => ch.map (fun row => row.reverse))

/-- Embeds np.zeros_like(X). -/
def zerosLike (X : Batch) : Batch :=
  X.map (fun img => img.map (fun ch => ch.map (fun row => row.map (fun _ => (0 : Pix)))))

/-- Embeds np.zeros((n, c, h, w)). -/
def zeros4 (n c h w : ℕ) : Batch :=
  List.replicate n (List.replicate c (List.replicate h (List.replicate w (0 : Pix))))

/-- Embeds boolean-mask gathering A[mask]: the elements at the true positions,
in order. -/
def boolSelect : List Bool → List α → List α
  | m :: ms, x :: xs => if m then x :: boolSelect ms xs else boolSelect ms xs
  | _, _ => []

/-- Embeds boolean-mask scattering A[mask] = vals: the true positions of A are
overwritten with vals in order, the rest kept. -/
def boolScatter : List Bool → List α → List α → List α
  | [], xs, _ => xs
  | _ :: _, [], _ => []
  | true :: ms, _ :: xs, v :: vs => v :: boolScatter ms xs vs
  | true :: ms, x :: xs, [] => x :: boolScatter ms xs []
  | false :: ms, x :: xs, vs => x :: boolScatter ms xs vs

/-- Embeds np.random.uniform(low, high) applied to a unit sample r drawn from
[0, 1): low + (high - low) * r. -/
def uniformDraw (low high r : ℚ) : ℚ := low + (high - low) * r

/-- List map that also passes the position, used for the per-image and
per-channel indices of the sampled tint matrix. -/
def mapWithIdx (f : ℕ → α → β) : ℕ → List α → List β
  | _, [] => []
  | i, x :: xs => f i x :: mapWithIdx f (i + 1) xs

/-- Embeds random_flips, mask being the np.random.randint(2, size=N) draw
(true standing for 1).  Returns the final contents of X alongside out. -/
def random_flips_run (X : Batch) (mask : List Bool) : Batch × Batch :=
  let out := zerosLike X
  let out := boolScatter mask out ((boolSelect mask X).map flipW)
  let out := boolScatter (mask.map not) out (boolSelect (mask.map not) X)
  (X, out)

/-- Return value of random_flips. -/
def random_flips (X : Batch) (mask : List Bool) : Batch :=
  (random_flips_run X mask).2

/-- Embeds random_crops, x and y being the np.random.randint(H - HH) and
np.random.randint(W - WW) draws.  The assert becomes the error branch. -/
def random_crops_run (X : Batch) (HH WW x y : ℕ) : Batch × Except String Batch :=
  let N := dimN X
  let C := dimC X
  let H := dimH X
  let W := dimW X
  if HH < H ∧ WW < W then
    let out := zeros4 N C HH WW
    let out := sliceHW (some (x : ℤ)) (some ((x : ℤ) + HH)) (some (y : ℤ)) (some ((y : ℤ) + WW)) X
    (X, Except.ok out)
  else (X, Except.error ("AssertionError"))

/-- Return value of random_crops. -/
def random_crops (X : Batch) (HH WW x y : ℕ) : Except String Batch :=
  (random_crops_run X HH WW x y).2

/-- Embeds random_contrast, r being the unit sample behind
np.random.uniform(low, high). -/
def random_contrast_run (X : Batch) (low high r : ℚ) : Batch × Batch :=
  let out := zerosLike X
  let scalar := uniformDraw low high r
  let out := X.map (fun img => img.map (fun ch => ch.map (fun row => row.map (fun p => p * scalar))))
  (X, out)

/-- Return value of random_contrast. -/
def random_contrast (X : Batch) (low high r : ℚ) : Batch :=
  (random_contrast_run X low high r).2

/-- Embeds random_tint, R being the np.random.random_sample((N, C)) matrix of
unit samples: l = (high - low) * R + low is broadcast-added over the two
spatial axes. -/
def random_tint_run (X : Batch) (low high : ℚ) (R : ℕ → ℕ → ℚ) : Batch × Batch :=
  let out := zerosLike X
  let l : ℕ → ℕ → ℚ := fun n c => (high - low) * R n c + low
  let out := mapWithIdx (fun n img =>
    mapWithIdx (fun c ch => ch.map (fun row => row.map (fun p => p + l n c))) 0 img) 0 X
  (X, out)

/-- Return value of random_tint. -/
def random_tint (X : Batch) (low high : ℚ) (R : ℕ → ℕ → ℚ) : Batch :=
  (random_tint_run X low high R).2

/-- Embeds fixed_crops.  The two center offsets use Int.fdiv, the Python 2
integer floor division of the source; the corner branches slice with the
literal endpoints of the source, including the negative ones. -/
def fixed_crops_run (X : Batch) (HH WW : ℕ) (crop_type : String) :
    Batch × Except String Batch :=
  let H := dimH X
  let W := dimW X
  let x0 : ℤ := Int.fdiv ((W : ℤ) - (WW : ℤ)) 2
  let y0 : ℤ := Int.fdiv ((H : ℤ) - (HH : ℤ)) 2
  let x1 : ℤ := x0 + WW
  let y1 : ℤ := y0 + HH
  if crop_type = "center" then
    (X, Except.ok (sliceHW (some y0) (some y1) (some x0) (some x1) X))
  else if crop_type = "ul" then
    (X, Except.ok (sliceHW none (some (HH : ℤ)) none (some (WW : ℤ)) X))
  else if crop_type = "ur" then
    (X, Except.ok (sliceHW none (some (HH : ℤ)) (some (-(WW : ℤ))) none X))
  else if crop_type = "bl" then
    (X, Except.ok (sliceHW (some (-(HH : ℤ))) none none (some (WW : ℤ)) X))
  else if crop_type = "br" then
    (X, Except.ok (sliceHW (some (-(HH : ℤ))) none (some (-(WW : ℤ))) none X))
  else (X, Except.error ("Unrecognized crop type " ++ crop_type))

/-- Return value of fixed_crops. -/
def fixed_crops (X : Batch) (HH WW : ℕ) (crop_type : String) : Except String Batch :=
  (fixed_crops_run X HH WW crop_type).2

/-- Elementwise scaling X * f, the comparison point of the contrast claim. -/
def mulScalar (f : ℚ) (X : Batch) : Batch :=
  X.map (fun img => img.map (fun ch => ch.map (fun row => row.map (fun p => p * f))))

/-- Elementwise shift X + t, the comparison point of the tint claim. -/
def addScalar (t : ℚ) (X : Batch) : Batch :=
  X.map (fun img => img.map (fun ch => ch.map (fun row => row.map (fun p => p + t))))

/-- Concrete batch of shape (1, 1, 2, 2) used to instantiate the theorems. -/
def B1 : Batch := [[[[1, 2], [3, 4]]]]


/-- Equation form of normLo on a present endpoint. -/
lemma normLo_some (L i : ℤ) : normLo L (some i) = if i < 0 then max 0 (i + L) else min i L := rfl

/-- Equation form of normHi on a present endpoint. -/
lemma normHi_some (L i : ℤ) : normHi L (some i) = if i < 0 then max 0 (i + L) else min i L := rfl

/-- Equation form of normLo on an omitted endpoint. -/
lemma normLo_none (L : ℤ) : normLo L none = 0 := rfl

/-- Equation form of normHi on an omitted endpoint. -/
lemma normHi_none (L : ℤ) : normHi L none = L := rfl

/-- A getD through map, at an in-range position. -/
lemma getD_map_of_lt (f : α → β) (l : List α) (n : ℕ) (d : β) (d' : α) (h : n < l.length) :
    (l.map f).getD n d = f (l.getD n d') := by
  rw [List.getD_eq_getElem _ _ (by simpa using h), List.getD_eq_getElem _ _ h, List.getElem_map]

/-- An in-range getD is a member of the list. -/
lemma getD_mem {l : List α} {n : ℕ} (d : α) (h : n < l.length) : l.getD n d ∈ l := by
  rw [List.getD_eq_getElem _ _ h]
  exact List.getElem_mem _

/-- A getD through a drop-then-take window, at an in-range position. -/
lemma getD_drop_take {l : List α} {a k n : ℕ} (d : α) (hn : n < k) (hb : a + k ≤ l.length) :
    ((l.drop a).take k).getD n d = l.getD (a + n) d := by
  have h1 : n < ((l.drop a).take k).length := by
    simp only [List.length_take, List.length_drop]
    omega
  rw [List.getD_eq_getElem _ _ h1, List.getD_eq_getElem _ _ (by omega : a + n < l.length)]
  rw [List.getElem_take]
  rw [List.getElem_drop]

/-- A window slice l[a : a + k] that fits inside the list is drop-then-take. -/
lemma pySlice_window {l : List α} {a k : ℕ} (h : a + k ≤ l.length) :
    pySlice (some (a : ℤ)) (some ((a : ℤ) + (k : ℤ))) l = (l.drop a).take k := by
  unfold pySlice
  have hlo : (normLo (l.length : ℤ) (some (a : ℤ))).toNat = a := by
    rw [normLo_some]; split <;> omega
  have hhi : (normHi (l.length : ℤ) (some ((a : ℤ) + (k : ℤ)))).toNat = a + k := by
    rw [normHi_some]; split <;> omega
  rw [hlo, hhi, List.drop_take]
  congr 1
  omega

/-- A slice l[:k] is take, whatever k is (Python clamps at the length). -/
lemma pySlice_prefix_eq {l : List α} {k : ℕ} :
    pySlice none (some (k : ℤ)) l = l.take k := by
  unfold pySlice
  have hlo : (normLo (l.length : ℤ) none).toNat = 0 := by rw [normLo_none]; rfl
  rcases le_or_lt k l.length with h | h
  · have hhi : (normHi (l.length : ℤ) (some (k : ℤ))).toNat = k := by
      rw [normHi_some]; split <;> omega
    rw [hlo, hhi, List.drop_zero]
  · have hhi : (normHi (l.length : ℤ) (some (k : ℤ))).toNat = l.length := by
      rw [normHi_some]; split <;> omega
    rw [hlo, hhi, List.drop_zero, List.take_length, List.take_of_length_le (le_of_lt h)]

/-- A slice l[-k:] with 1 ≤ k ≤ length is drop from the end. -/
lemma pySlice_neg_suffix {l : List α} {k : ℕ} (h1 : 1 ≤ k) (h2 : k ≤ l.length) :
    pySlice (some (-(k : ℤ))) none l = l.drop (l.length - k) := by
  unfold pySlice
  have hlo : (normLo (l.length : ℤ) (some (-(k : ℤ)))).toNat = l.length - k := by
    rw [normLo_some]; split <;> omega
  have hhi : (normHi (l.length : ℤ) none).toNat = l.length := by
    rw [normHi_none]; omega
  rw [hlo, hhi, List.take_length]

/-- A slice l[-0:] is the whole list: Python reads -0 as 0. -/
lemma pySlice_neg_zero {l : List α} {k : ℕ} (hk : k = 0) :
    pySlice (some (-(k : ℤ))) none l = l := by
  subst hk
  unfold pySlice
  have hlo : (normLo (l.length : ℤ) (some (-((0 : ℕ) : ℤ)))).toNat = 0 := by
    rw [normLo_some]; split <;> omega
  have hhi : (normHi (l.length : ℤ) none).toNat = l.length := by
    rw [normHi_none]; omega
  rw [hlo, hhi, List.take_length, List.drop_zero]

/-- mapWithIdx preserves the length. -/
lemma mapWithIdx_length (f : ℕ → α → β) : ∀ (i : ℕ) (l : List α),
    (mapWithIdx f i l).length = l.length
  | _, [] => rfl
  | i, _ :: xs => by simp [mapWithIdx, mapWithIdx_length f (i + 1) xs]

/-- A getD through mapWithIdx, at an in-range position. -/
lemma mapWithIdx_getD (f : ℕ → α → β) (d : β) (d' : α) :
    ∀ (l : List α) (i n : ℕ), n < l.length →
      (mapWithIdx f i l).getD n d = f (i + n) (l.getD n d')
  | [], _, n, h => by simp at h
  | x :: xs, i, 0, _ => by simp [mapWithIdx]
  | x :: xs, i, n + 1, h => by
    have h' : n < xs.length := by simpa using h
    simp only [mapWithIdx, List.getD_cons_succ]
    rw [mapWithIdx_getD f d d' xs (i + 1) n h']
    congr 1
    omega

/-- Members of mapWithIdx come from members of the list. -/
lemma mapWithIdx_mem {f : ℕ → α → β} :
    ∀ {i : ℕ} {l : List α} {y : β}, y ∈ mapWithIdx f i l → ∃ j x, x ∈ l ∧ y = f j x := by
  intro i l
  induction l generalizing i with
  | nil => intro y h; simp [mapWithIdx] at h
  | cons x xs ih =>
    intro y h
    rw [mapWithIdx, List.mem_cons] at h
    rcases h with h | h
    · exact ⟨i, x, List.mem_cons_self _ _, h⟩
    · obtain ⟨j, x', hx', hy⟩ := ih h
      exact ⟨j, x', List.mem_cons_of_mem _ hx', hy⟩

/-- mapWithIdx respects pointwise equal functions. -/
lemma mapWithIdx_congr {f g : ℕ → α → β} (h : ∀ i x, f i x = g i x) :
    ∀ (i : ℕ) (l : List α), mapWithIdx f i l = mapWithIdx g i l
  | _, [] => rfl
  | i, x :: xs => by
    simp only [mapWithIdx]
    rw [h i x, mapWithIdx_congr h (i + 1) xs]

/-- mapWithIdx with an index-blind function is map. -/
lemma mapWithIdx_eq_map (g : α → β) : ∀ (i : ℕ) (l : List α),
    mapWithIdx (fun _ x => g x) i l = l.map g
  | _, [] => rfl
  | i, x :: xs => by simp [mapWithIdx, mapWithIdx_eq_map g (i + 1) xs]

/-- Members of a zipWith come from members of the second list. -/
lemma zipWith_mem {g : Bool → α → α} :
    ∀ {mask : List Bool} {X : List α} {y : α},
      y ∈ List.zipWith g mask X → ∃ m x, x ∈ X ∧ y = g m x := by
  intro mask
  induction mask with
  | nil => intro X y h; simp at h
  | cons m ms ih =>
    intro X y h
    cases X with
    | nil => simp at h
    | cons x xs =>
      rw [List.zipWith_cons_cons, List.mem_cons] at h
      rcases h with h | h
      · exact ⟨m, x, List.mem_cons_self _ _, h⟩
      · obtain ⟨m', x', hx', hy⟩ := ih h
        exact ⟨m', x', List.mem_cons_of_mem _ hx', hy⟩

/-- The two mask-scatter statements of random_flips amount to a per-image
choice: position i of the result is f X[i] where the mask is set and X[i]
where it is not. -/
lemma boolScatter_select (f : α → α) :
    ∀ (mask : List Bool) (X base : List α), mask.length = X.length → base.length = X.length →
      boolScatter (mask.map not) (boolScatter mask base ((boolSelect mask X).map f))
          (boolSelect (mask.map not) X)
        = List.zipWith (fun m x => if m then f x else x) mask X := by
  intro mask
  induction mask with
  | nil =>
    intro X base h1 h2
    have hX : X = [] := List.length_eq_zero.mp h1.symm
    subst hX
    have hb : base = [] := List.length_eq_zero.mp h2
    subst hb
    rfl
  | cons m ms ih =>
    intro X base h1 h2
    cases X with
    | nil => simp at h1
    | cons x xs =>
      cases base with
      | nil => simp at h2
      | cons b bs =>
        have h1' : ms.length = xs.length := by simpa using h1
        have h2' : bs.length = xs.length := by simpa using h2
        cases m with
        | true => simp [boolSelect, boolScatter, ih xs bs h1' h2']
        | false => simp [boolSelect, boolScatter, ih xs bs h1' h2']

/-- random_flips is the per-image choice between identity and width flip. -/
lemma random_flips_eq_zipWith {X : Batch} {mask : List Bool} (h : mask.length = X.length) :
    random_flips X mask = List.zipWith (fun m img => if m then flipW img else img) mask X := by
  unfold random_flips random_flips_run
  exact boolScatter_select flipW mask X (zerosLike X) h (by simp [zerosLike])

/-- flipW preserves the shape of an image. -/
lemma flipW_shape {img : Image} {C H W : ℕ} (h : imgHasShape img C H W) :
    imgHasShape (flipW img) C H W := by
  obtain ⟨h1, h2⟩ := h
  refine ⟨by simpa [flipW] using h1, ?_⟩
  intro ch' hch'
  rw [flipW, List.mem_map] at hch'
  obtain ⟨ch, hch, rfl⟩ := hch'
  obtain ⟨hlen, hrows⟩ := h2 ch hch
  refine ⟨by simpa using hlen, ?_⟩
  intro row' hrow'
  rw [List.mem_map] at hrow'
  obtain ⟨row, hrow, rfl⟩ := hrow'
  simpa using hrows row hrow

/-- The first shape component is the batch length. -/
lemma dimN_eq {X : Batch} {N C H W : ℕ} (hS : hasShape X N C H W) : dimN X = N := hS.1

/-- The second shape component is the channel count, read off the first image. -/
lemma dimC_eq {X : Batch} {N C H W : ℕ} (hS : hasShape X N C H W) (hN : 0 < N) :
    dimC X = C := by
  obtain ⟨h1, h2⟩ := hS
  cases X with
  | nil => simp at h1; omega
  | cons img t => exact (h2 img (List.mem_cons_self _ _)).1

/-- The third shape component is the row count, read off the first channel. -/
lemma dimH_eq {X : Batch} {N C H W : ℕ} (hS : hasShape X N C H W) (hN : 0 < N) (hC : 0 < C) :
    dimH X = H := by
  obtain ⟨h1, h2⟩ := hS
  cases X with
  | nil => simp at h1; omega
  | cons img t =>
    obtain ⟨hc, hrows⟩ := h2 img (List.mem_cons_self _ _)
    cases img with
    | nil => simp at hc; omega
    | cons ch t' => exact (hrows ch (List.mem_cons_self _ _)).1

/-- The fourth shape component is the row width, read off the first row. -/
lemma dimW_eq {X : Batch} {N C H W : ℕ} (hS : hasShape X N C H W) (hN : 0 < N) (hC : 0 < C)
    (hH : 0 < H) : dimW X = W := by
  obtain ⟨h1, h2⟩ := hS
  cases X with
  | nil => simp at h1; omega
  | cons img t =>
    obtain ⟨hc, hrows⟩ := h2 img (List.mem_cons_self _ _)
    cases img with
    | nil => simp at hc; omega
    | cons ch t' =>
      obtain ⟨hh, hw⟩ := hrows ch (List.mem_cons_self _ _)
      cases ch with
      | nil => simp at hh; omega
      | cons row t'' => exact hw row (List.mem_cons_self _ _)


/-- A window slice of every image: under the shape hypothesis and in-range
window, sliceHW is drop-then-take on each spatial axis. -/
lemma sliceHW_window_eq {X : Batch} {N C H W a k b m : ℕ} (hS : hasShape X N C H W)
    (hxb : a + k ≤ H) (hyb : b + m ≤ W) :
    sliceHW (some (a : ℤ)) (some ((a : ℤ) + (k : ℤ))) (some (b : ℤ)) (some ((b : ℤ) + (m : ℤ))) X
      = X.map (fun img => img.map (fun ch =>
          ((ch.drop a).take k).map (fun row => (row.drop b).take m))) := by
  unfold sliceHW
  apply List.map_congr_left
  intro img himg
  apply List.map_congr_left
  intro ch hch
  obtain ⟨hchH, hrow⟩ := (hS.2 img himg).2 ch hch
  rw [pySlice_window (by rw [hchH]; omega)]
  apply List.map_congr_left
  intro row hrowm
  have hrW : row.length = W :=
    hrow row ((List.drop_sublist _ _).subset ((List.take_sublist _ _).subset hrowm))
  rw [pySlice_window (by rw [hrW]; omega)]

/-- A drop-then-take window of every image has the window's shape. -/
lemma window_shape {X : Batch} {N C H W a k b m : ℕ} (hS : hasShape X N C H W)
    (hxb : a + k ≤ H) (hyb : b + m ≤ W) :
    hasShape (X.map (fun img => img.map (fun ch =>
      ((ch.drop a).take k).map (fun row => (row.drop b).take m)))) N C k m := by
  constructor
  · simpa using hS.1
  · intro img' himg'
    rw [List.mem_map] at himg'
    obtain ⟨img, himg, rfl⟩ := himg'
    obtain ⟨hc, hrows⟩ := hS.2 img himg
    constructor
    · simpa using hc
    · intro ch' hch'
      rw [List.mem_map] at hch'
      obtain ⟨ch, hch, rfl⟩ := hch'
      obtain ⟨hH2, hW2⟩ := hrows ch hch
      constructor
      · simp only [List.length_map, List.length_take, List.length_drop, hH2]
        omega
      · intro row' hrow'
        rw [List.mem_map] at hrow'
        obtain ⟨row, hrowm, rfl⟩ := hrow'
        have hrW : row.length = W :=
          hW2 row ((List.drop_sublist _ _).subset ((List.take_sublist _ _).subset hrowm))
        simp only [List.length_take, List.length_drop, hrW]
        omega

/-- Element (n, c, i, j) of a drop-then-take window is element
(n, c, a + i, b + j) of the input. -/
lemma idx_window {X : Batch} {N C H W a k b m n c i j : ℕ} (hS : hasShape X N C H W)
    (hxb : a + k ≤ H) (hyb : b + m ≤ W)
    (hn : n < N) (hc : c < C) (hi : i < k) (hj : j < m) :
    idx (X.map (fun img => img.map (fun ch =>
      ((ch.drop a).take k).map (fun row => (row.drop b).take m)))) n c i j
      = idx X n c (a + i) (b + j) := by
  have hn' : n < X.length := by rw [hS.1]; exact hn
  have himg := hS.2 _ (getD_mem ([] : Image) hn')
  have hc' : c < (X.getD n ([] : Image)).length := by rw [himg.1]; exact hc
  have hch := himg.2 _ (getD_mem ([] : Chan) hc')
  have hai : a + i < ((X.getD n ([] : Image)).getD c ([] : Chan)).length := by
    rw [hch.1]; omega
  have hrW : (((X.getD n ([] : Image)).getD c ([] : Chan)).getD (a + i) ([] : Row)).length = W :=
    hch.2 _ (getD_mem ([] : Row) hai)
  have e1 : (X.map (fun img => img.map (fun ch =>
      ((ch.drop a).take k).map (fun row => (row.drop b).take m)))).getD n ([] : Image)
      = (X.getD n ([] : Image)).map (fun ch =>
          ((ch.drop a).take k).map (fun row => (row.drop b).take m)) := by
    rw [getD_map_of_lt _ X n ([] : Image) ([] : Image) hn']
  have e2 : ((X.getD n ([] : Image)).map (fun ch =>
      ((ch.drop a).take k).map (fun row => (row.drop b).take m))).getD c ([] : Chan)
      = ((((X.getD n ([] : Image)).getD c ([] : Chan)).drop a).take k).map
          (fun row => (row.drop b).take m) := by
    rw [getD_map_of_lt _ _ c ([] : Chan) ([] : Chan) hc']
  have e3 : (((((X.getD n ([] : Image)).getD c ([] : Chan)).drop a).take k).map
      (fun row => (row.drop b).take m)).getD i ([] : Row)
      = ((((X.getD n ([] : Image)).getD c ([] : Chan)).getD (a + i) ([] : Row)).drop b).take m := by
    rw [getD_map_of_lt _ _ i ([] : Row) ([] : Row)
      (by simp only [List.length_take, List.length_drop]; omega),
      getD_drop_take ([] : Row) hi (by omega)]
  have e4 : (((((X.getD n ([] : Image)).getD c ([] : Chan)).getD (a + i) ([] : Row)).drop b).take
      m).getD j (0 : Pix)
      = (((X.getD n ([] : Image)).getD c ([] : Chan)).getD (a + i) ([] : Row)).getD (b + j)
          (0 : Pix) :=
    getD_drop_take (0 : Pix) hj (by rw [hrW]; omega)
  unfold idx
  rw [e1, e2, e3, e4]

/-- The slice [-0:, -0:] of the spatial axes is the whole batch. -/
lemma sliceHW_neg_zero (X : Batch) :
    sliceHW (some (-((0 : ℕ) : ℤ))) none (some (-((0 : ℕ) : ℤ))) none X = X := by
  unfold sliceHW
  trans X.map (fun img => img)
  · apply List.map_congr_left
    intro img _
    trans img.map (fun ch => ch)
    · apply List.map_congr_left
      intro ch _
      rw [pySlice_neg_zero rfl]
      trans ch.map (fun row => row)
      · apply List.map_congr_left
        intro row _
        exact pySlice_neg_zero rfl
      · simp
    · simp
  · simp

/-- Branch equation of fixed_crops at the center tag. -/
lemma fixed_crops_center_eq (X : Batch) (HH WW : ℕ) :
    fixed_crops X HH WW ("center")
      = Except.ok (sliceHW (some (Int.fdiv ((dimH X : ℤ) - (HH : ℤ)) 2))
          (some (Int.fdiv ((dimH X : ℤ) - (HH : ℤ)) 2 + (HH : ℤ)))
          (some (Int.fdiv ((dimW X : ℤ) - (WW : ℤ)) 2))
          (some (Int.fdiv ((dimW X : ℤ) - (WW : ℤ)) 2 + (WW : ℤ))) X) := rfl

/-- Branch equation of fixed_crops at the ul tag. -/
lemma fixed_crops_ul_eq (X : Batch) (HH WW : ℕ) :
    fixed_crops X HH WW ("ul")
      = Except.ok (sliceHW none (some (HH : ℤ)) none (some (WW : ℤ)) X) := rfl

/-- Branch equation of fixed_crops at the ur tag. -/
lemma fixed_crops_ur_eq (X : Batch) (HH WW : ℕ) :
    fixed_crops X HH WW ("ur")
      = Except.ok (sliceHW none (some (HH : ℤ)) (some (-(WW : ℤ))) none X) := rfl

/-- Branch equation of fixed_crops at the bl tag. -/
lemma fixed_crops_bl_eq (X : Batch) (HH WW : ℕ) :
    fixed_crops X HH WW ("bl")
      = Except.ok (sliceHW (some (-(HH : ℤ))) none none (some (WW : ℤ)) X) := rfl

/-- Branch equation of fixed_crops at the br tag. -/
lemma fixed_crops_br_eq (X : Batch) (HH WW : ℕ) :
    fixed_crops X HH WW ("br")
      = Except.ok (sliceHW (some (-(HH : ℤ))) none (some (-(WW : ℤ))) none X) := rfl

/-- Claim C9: no function of the module mutates its input: for every call to
random_flips, random_crops, random_contrast, random_tint or fixed_crops, the
input batch X holds exactly the same element values after the call as before
it.  Each embedded run threads X through every statement of the source body
and returns its final contents alongside the result; that final contents is
always the input, since every assignment of the source targets out. -/
theorem claim9_no_input_mutation (X : Batch) (mask : List Bool) (HH WW x y : ℕ)
    (low high r : ℚ) (R : ℕ → ℕ → ℚ) (tag : String) :
    (random_flips_run X mask).1 = X ∧
    (random_crops_run X HH WW x y).1 = X ∧
    (random_contrast_run X low high r).1 = X ∧
    (random_tint_run X low high R).1 = X ∧
    (fixed_crops_run X HH WW tag).1 = X := by
  refine ⟨rfl, ?_, rfl, rfl, ?_⟩
  · simp only [random_crops_run]
    split <;> rfl
  · simp only [fixed_crops_run]
    repeat' split
    all_goals rfl

/-- Claim C7: fixed_crops with any tag outside the five recognized values
fails with an error message that names the offending tag as an unrecognized
crop type, and this error is its sole outcome. -/
theorem claim7_fixed_crops_unrecognized (X : Batch) (HH WW : ℕ) (tag : String)
    (h : tag ∉ (["center", "ul", "ur", "bl", "br"] : List String)) :
    fixed_crops X HH WW tag = Except.error ("Unrecognized crop type " ++ tag) := by
  simp only [List.mem_cons, List.not_mem_nil, or_false, not_or] at h
  obtain ⟨h1, h2, h3, h4, h5⟩ := h
  simp only [fixed_crops, fixed_crops_run]
  rw [if_neg h1, if_neg h2, if_neg h3, if_neg h4, if_neg h5]

/-- Witness for claim C7 at the tag bogus. -/
theorem claim7_witness :
    fixed_crops B1 1 1 ("bogus") = Except.error ("Unrecognized crop type " ++ "bogus") :=
  claim7_fixed_crops_unrecognized B1 1 1 ("bogus") (by decide)

/-- Claim C1: random_flips returns a batch of the same shape in which every
image is either the corresponding input image unchanged or that image with
the order of samples along the width axis reversed (the reversal applied by
flipW uniformly to all channels and rows), and an empty batch maps to the
empty batch.  The mask is the per-image np.random.randint(2, size=N) draw,
so the choice is made once per image. -/
theorem claim1_random_flips (X : Batch) (mask : List Bool) (N C H W : ℕ)
    (hlen : mask.length = X.length) (hS : hasShape X N C H W) :
    hasShape (random_flips X mask) N C H W ∧
    (∀ i, i < X.length →
      (random_flips X mask).getD i ([] : Image) = X.getD i ([] : Image) ∨
      (random_flips X mask).getD i ([] : Image) = flipW (X.getD i ([] : Image))) ∧
    (X = [] → random_flips X mask = []) := by
  rw [random_flips_eq_zipWith hlen]
  refine ⟨⟨?_, ?_⟩, ?_, ?_⟩
  · rw [List.length_zipWith, hlen, min_self, hS.1]
  · intro img' himg'
    obtain ⟨m, img, himg, rfl⟩ := zipWith_mem himg'
    cases m with
    | true => simpa using flipW_shape (hS.2 img himg)
    | false => simpa using hS.2 img himg
  · intro i hi
    have hzl : i < (List.zipWith (fun m img => if m then flipW img else img) mask X).length := by
      rw [List.length_zipWith]
      omega
    rw [List.getD_eq_getElem _ _ hzl, List.getD_eq_getElem _ _ hi, List.getElem_zipWith]
    split
    · right
      rfl
    · left
      rfl
  · intro hX
    subst hX
    simp

/-- Witness for claim C1 on a one-image batch with the flip selected. -/
theorem claim1_witness :
    hasShape (random_flips B1 [true]) 1 1 2 2 ∧
    (∀ i, i < B1.length →
      (random_flips B1 [true]).getD i ([] : Image) = B1.getD i ([] : Image) ∨
      (random_flips B1 [true]).getD i ([] : Image) = flipW (B1.getD i ([] : Image))) ∧
    (B1 = [] → random_flips B1 [true] = []) :=
  claim1_random_flips B1 [true] 1 1 2 2 (by decide) (by decide)

/-- Claim C8: random_crops raises its precondition violation exactly when
HH ≥ H or WW ≥ W, and raises nothing when HH < H and WW < W.  The error is
the whole outcome of the call: the embedded result is the error value and no
batch is produced. -/
theorem claim8_random_crops_assert (X : Batch) (N C H W HH WW x y : ℕ)
    (hS : hasShape X N C H W) (hN : 0 < N) (hC : 0 < C) :
    ((∃ e, random_crops X HH WW x y = Except.error e) ↔ (H ≤ HH ∨ W ≤ WW)) ∧
    (HH < H ∧ WW < W → ∃ out, random_crops X HH WW x y = Except.ok out) := by
  have hH' : dimH X = H := dimH_eq hS hN hC
  by_cases hHpos : 0 < H
  · have hW' : dimW X = W := dimW_eq hS hN hC hHpos
    have hok : HH < H ∧ WW < W →
        random_crops X HH WW x y = Except.ok
          (sliceHW (some (x : ℤ)) (some ((x : ℤ) + (HH : ℤ)))
            (some (y : ℤ)) (some ((y : ℤ) + (WW : ℤ))) X) := by
      intro hc
      simp only [random_crops, random_crops_run, hH', hW']
      rw [if_pos hc]
    have herr : ¬(HH < H ∧ WW < W) →
        random_crops X HH WW x y = Except.error ("AssertionError") := by
      intro hc
      simp only [random_crops, random_crops_run, hH', hW']
      rw [if_neg hc]
    constructor
    · constructor
      · rintro ⟨e, he⟩
        by_contra hcon
        push_neg at hcon
        rw [hok ⟨by omega, by omega⟩] at he
        exact Except.noConfusion he
      · intro hcon
        exact ⟨"AssertionError", herr (by omega)⟩
    · intro hc
      exact ⟨_, hok hc⟩
  · have herr : random_crops X HH WW x y = Except.error ("AssertionError") := by
      simp only [random_crops, random_crops_run, hH']
      rw [if_neg (by omega)]
    refine ⟨⟨fun _ => Or.inl (by omega), fun _ => ⟨"AssertionError", herr⟩⟩, ?_⟩
    intro hc
    omega

/-- Witness for claim C8 on a (1, 1, 2, 2) batch and a 1 by 1 crop. -/
theorem claim8_witness :
    ((∃ e, random_crops B1 1 1 0 0 = Except.error e) ↔ (2 ≤ 1 ∨ 2 ≤ 1)) ∧
    (1 < 2 ∧ 1 < 2 → ∃ out, random_crops B1 1 1 0 0 = Except.ok out) :=
  claim8_random_crops_assert B1 1 1 2 2 1 1 0 0 (by decide) (by decide) (by decide)

/-- Claim C3: random_contrast equals X multiplied elementwise by one scalar
factor f with low ≤ f < high, the same factor at every image, channel and
position (that is what mulScalar applies); and when low = high = s the
result is exactly X * s elementwise.  The hypotheses on r state what numpy
guarantees of the unit sample behind np.random.uniform. -/
theorem claim3_random_contrast (X : Batch) (low high r : ℚ) (h0 : 0 ≤ r) (h1 : r < 1) :
    (low < high → ∃ f, low ≤ f ∧ f < high ∧ random_contrast X low high r = mulScalar f X) ∧
    (∀ s, low = s → high = s → random_contrast X low high r = mulScalar s X) := by
  have hdef : random_contrast X low high r = mulScalar (uniformDraw low high r) X := rfl
  constructor
  · intro hlh
    refine ⟨uniformDraw low high r, ?_, ?_, hdef⟩
    · unfold uniformDraw
      nlinarith
    · unfold uniformDraw
      nlinarith
  · rintro s rfl rfl
    rw [hdef]
    unfold mulScalar
    congr 1
    funext img
    congr 1
    funext ch
    congr 1
    funext row
    congr 1
    funext p
    unfold uniformDraw
    ring

/-- Witness for claim C3 with range (0, 1) and unit sample one half. -/
theorem claim3_witness :
    ((0 : ℚ) < 1 → ∃ f, (0 : ℚ) ≤ f ∧ f < 1 ∧
      random_contrast B1 0 1 (1 / 2) = mulScalar f B1) ∧
    (∀ s, (0 : ℚ) = s → (1 : ℚ) = s → random_contrast B1 0 1 (1 / 2) = mulScalar s B1) :=
  claim3_random_contrast B1 0 1 (1 / 2) (by norm_num) (by norm_num)

/-- Claim C4: random_tint adds to X an offset depending only on the image and
channel indices: there is an (N, C) matrix L of values in [low, high) with
output[n, c, h, w] = X[n, c, h, w] + L[n, c] everywhere, the shape is kept;
and when low = high = t the result is exactly X + t elementwise.  R is the
np.random.random_sample((N, C)) matrix, its entries in [0, 1). -/
theorem claim4_random_tint (X : Batch) (low high : ℚ) (R : ℕ → ℕ → ℚ) (N C H W : ℕ)
    (hS : hasShape X N C H W) (hR : ∀ n c, 0 ≤ R n c ∧ R n c < 1) :
    hasShape (random_tint X low high R) N C H W ∧
    (low < high → ∃ L : ℕ → ℕ → ℚ, (∀ n c, low ≤ L n c ∧ L n c < high) ∧
      ∀ n c h w, n < N → c < C → h < H → w < W →
        idx (random_tint X low high R) n c h w = idx X n c h w + L n c) ∧
    (∀ t, low = t → high = t → random_tint X low high R = addScalar t X) := by
  have hdef : random_tint X low high R =
      mapWithIdx (fun n img => mapWithIdx (fun c ch =>
        ch.map (fun row => row.map (fun p => p + ((high - low) * R n c + low)))) 0 img) 0 X := rfl
  refine ⟨⟨?_, ?_⟩, ?_, ?_⟩
  · rw [hdef, mapWithIdx_length]
    exact hS.1
  · intro img' himg'
    rw [hdef] at himg'
    obtain ⟨n, img, himg, rfl⟩ := mapWithIdx_mem himg'
    obtain ⟨hc, hrows⟩ := hS.2 img himg
    refine ⟨by rw [mapWithIdx_length]; exact hc, ?_⟩
    intro ch' hch'
    obtain ⟨c, ch, hch, rfl⟩ := mapWithIdx_mem hch'
    obtain ⟨hh, hw⟩ := hrows ch hch
    refine ⟨by simpa using hh, ?_⟩
    intro row' hrow'
    rw [List.mem_map] at hrow'
    obtain ⟨row, hrow, rfl⟩ := hrow'
    simpa using hw row hrow
  · intro hlh
    refine ⟨fun n c => (high - low) * R n c + low, fun n c => ⟨?_, ?_⟩, ?_⟩
    · obtain ⟨hr0, hr1⟩ := hR n c
      show low ≤ (high - low) * R n c + low
      nlinarith
    · obtain ⟨hr0, hr1⟩ := hR n c
      show (high - low) * R n c + low < high
      nlinarith
    · intro n c h w hn hc hh hw
      have hn' : n < X.length := by rw [hS.1]; exact hn
      have himg : imgHasShape (X.getD n ([] : Image)) C H W := hS.2 _ (getD_mem _ hn')
      have hc' : c < (X.getD n ([] : Image)).length := by rw [himg.1]; exact hc
      have hch : ((X.getD n ([] : Image)).getD c ([] : Chan)).length = H ∧
          ∀ row ∈ (X.getD n ([] : Image)).getD c ([] : Chan), row.length = W :=
        himg.2 _ (getD_mem _ hc')
      have hh' : h < ((X.getD n ([] : Image)).getD c ([] : Chan)).length := by
        rw [hch.1]; exact hh
      have hw' : w < (((X.getD n ([] : Image)).getD c ([] : Chan)).getD h ([] : Row)).length := by
        rw [hch.2 _ (getD_mem _ hh')]; exact hw
      have e1 : (random_tint X low high R).getD n ([] : Image) =
          mapWithIdx (fun c ch => ch.map (fun row =>
            row.map (fun p => p + ((high - low) * R n c + low)))) 0 (X.getD n ([] : Image)) := by
        rw [hdef, mapWithIdx_getD _ ([] : Image) ([] : Image) X 0 n hn']
        simp
      unfold idx
      rw [e1, mapWithIdx_getD _ ([] : Chan) ([] : Chan) _ 0 c hc']
      simp only [Nat.zero_add]
      rw [getD_map_of_lt _ _ h ([] : Row) ([] : Row) hh',
        getD_map_of_lt _ _ w (0 : Pix) (0 : Pix) hw']
  · have hgen : ∀ lo : ℚ, random_tint X lo lo R = addScalar lo X := by
      intro lo
      have hdef' : random_tint X lo lo R =
          mapWithIdx (fun n img => mapWithIdx (fun c ch =>
            ch.map (fun row => row.map (fun p => p + ((lo - lo) * R n c + lo)))) 0 img) 0 X := rfl
      rw [hdef']
      unfold addScalar
      have hfun : ∀ n c : ℕ, (fun p : ℚ => p + ((lo - lo) * R n c + lo)) = fun p => p + lo := by
        intro n c
        funext p
        ring
      have hinner : ∀ (n : ℕ) (img : Image),
          mapWithIdx (fun c ch => ch.map (fun row =>
            row.map (fun p => p + ((lo - lo) * R n c + lo)))) 0 img
            = img.map (fun ch => ch.map (fun row => row.map (fun p => p + lo))) := by
        intro n img
        calc mapWithIdx (fun c ch => ch.map (fun row =>
                row.map (fun p => p + ((lo - lo) * R n c + lo)))) 0 img
            = mapWithIdx (fun _ ch => ch.map (fun row =>
                row.map (fun p => p + lo))) 0 img :=
              mapWithIdx_congr (fun c ch => by rw [hfun n c]) 0 img
          _ = img.map (fun ch => ch.map (fun row => row.map (fun p => p + lo))) :=
              mapWithIdx_eq_map _ 0 img
      calc mapWithIdx (fun n img => mapWithIdx (fun c ch =>
              ch.map (fun row => row.map (fun p => p + ((lo - lo) * R n c + lo)))) 0 img) 0 X
          = mapWithIdx (fun _ img =>
              img.map (fun ch => ch.map (fun row => row.map (fun p => p + lo)))) 0 X :=
            mapWithIdx_congr (fun n img => hinner n img) 0 X
        _ = X.map (fun img =>
              img.map (fun ch => ch.map (fun row => row.map (fun p => p + lo)))) :=
            mapWithIdx_eq_map _ 0 X
    intro t h1 h2
    rw [h1, h2]
    exact hgen t

/-- Witness for claim C4 with range (0, 1) and all unit samples one half. -/
theorem claim4_witness :
    hasShape (random_tint B1 0 1 (fun _ _ => 1 / 2)) 1 1 2 2 ∧
    ((0 : ℚ) < 1 → ∃ L : ℕ → ℕ → ℚ, (∀ n c, (0 : ℚ) ≤ L n c ∧ L n c < 1) ∧
      ∀ n c h w, n < 1 → c < 1 → h < 2 → w < 2 →
        idx (random_tint B1 0 1 (fun _ _ => 1 / 2)) n c h w = idx B1 n c h w + L n c) ∧
    (∀ t, (0 : ℚ) = t → (1 : ℚ) = t → random_tint B1 0 1 (fun _ _ => 1 / 2) = addScalar t B1) :=
  claim4_random_tint B1 0 1 (fun _ _ => 1 / 2) 1 1 2 2 (by decide)
    (fun n c => by constructor <;> norm_num)

/-- Claim C2: for crop dimensions strictly inside the image, random_crops
succeeds with a batch of shape (N, C, HH, WW) that is X restricted to the
single window at offsets (x, y), the same offsets for every image and
channel.  The offsets are the two randint draws, so the hypotheses on them
state the randint ranges 0 ≤ x < H - HH and 0 ≤ y < W - WW. -/
theorem claim2_random_crops (X : Batch) (N C H W HH WW x y : ℕ)
    (hS : hasShape X N C H W) (hN : 0 < N) (hC : 0 < C)
    (hHH : HH < H) (hWW : WW < W) (hx : x < H - HH) (hy : y < W - WW) :
    ∃ out, random_crops X HH WW x y = Except.ok out ∧ hasShape out N C HH WW ∧
      ∀ n c i j, n < N → c < C → i < HH → j < WW →
        idx out n c i j = idx X n c (x + i) (y + j) := by
  have hHpos : 0 < H := by omega
  have hH2 : dimH X = H := dimH_eq hS hN hC
  have hW2 : dimW X = W := dimW_eq hS hN hC hHpos
  have hxb : x + HH ≤ H := by omega
  have hyb : y + WW ≤ W := by omega
  have hout : random_crops X HH WW x y = Except.ok
      (sliceHW (some (x : ℤ)) (some ((x : ℤ) + (HH : ℤ)))
        (some (y : ℤ)) (some ((y : ℤ) + (WW : ℤ))) X) := by
    simp only [random_crops, random_crops_run, hH2, hW2]
    rw [if_pos ⟨hHH, hWW⟩]
  rw [sliceHW_window_eq hS hxb hyb] at hout
  refine ⟨_, hout, window_shape hS hxb hyb, ?_⟩
  intro n c i j hn hc hi hj
  exact idx_window hS hxb hyb hn hc hi hj

/-- Witness for claim C2 on a (1, 1, 2, 2) batch, a 1 by 1 crop and zero
offsets. -/
theorem claim2_witness :
    ∃ out, random_crops B1 1 1 0 0 = Except.ok out ∧ hasShape out 1 1 1 1 ∧
      ∀ n c i j, n < 1 → c < 1 → i < 1 → j < 1 →
        idx out n c i j = idx B1 n c (0 + i) (0 + j) :=
  claim2_random_crops B1 1 1 2 2 1 1 0 0 (by decide) (by decide) (by decide)
    (by decide) (by decide) (by decide) (by decide)

/-- Claim C5: fixed_crops with the center tag returns the deterministic
window starting at row (H - HH) / 2 and column (W - WW) / 2, each offset
computed from its own axis by integer division that truncates an odd
difference; within the embedding the Python 2 floor division Int.fdiv on the
nonnegative differences is exactly that truncating division. -/
theorem claim5_fixed_crops_center (X : Batch) (N C H W HH WW : ℕ)
    (hS : hasShape X N C H W) (hN : 0 < N) (hC : 0 < C) (hH : 0 < H)
    (hHH : HH ≤ H) (hWW : WW ≤ W) :
    fixed_crops X HH WW ("center") = Except.ok
      (X.map (fun img => img.map (fun ch =>
        ((ch.drop ((H - HH) / 2)).take HH).map
          (fun row => (row.drop ((W - WW) / 2)).take WW)))) := by
  have hH2 : dimH X = H := dimH_eq hS hN hC
  have hW2 : dimW X = W := dimW_eq hS hN hC hH
  have hyz : Int.fdiv ((H : ℤ) - (HH : ℤ)) 2 = (((H - HH) / 2 : ℕ) : ℤ) := by
    rw [show (H : ℤ) - (HH : ℤ) = ((H - HH : ℕ) : ℤ) by omega,
      Int.fdiv_eq_ediv _ (by norm_num)]
    norm_cast
  have hxz : Int.fdiv ((W : ℤ) - (WW : ℤ)) 2 = (((W - WW) / 2 : ℕ) : ℤ) := by
    rw [show (W : ℤ) - (WW : ℤ) = ((W - WW : ℕ) : ℤ) by omega,
      Int.fdiv_eq_ediv _ (by norm_num)]
    norm_cast
  have hdH := Nat.div_le_self (H - HH) 2
  have hdW := Nat.div_le_self (W - WW) 2
  simp only [fixed_crops, fixed_crops_run, hH2, hW2, hyz, hxz]
  rw [if_pos trivial, sliceHW_window_eq hS (by omega) (by omega)]

/-- Witness for claim C5 on a (1, 1, 2, 2) batch and a 1 by 1 crop, where
both differences are odd and truncate. -/
theorem claim5_witness :
    fixed_crops B1 1 1 ("center") = Except.ok
      (B1.map (fun img => img.map (fun ch =>
        ((ch.drop ((2 - 1) / 2)).take 1).map
          (fun row => (row.drop ((2 - 1) / 2)).take 1)))) :=
  claim5_fixed_crops_center B1 1 1 2 2 1 1 (by decide) (by decide) (by decide)
    (by decide) (by decide) (by decide)

/-- Claim C6: fixed_crops with the ul tag is exactly the first HH rows and
first WW columns of every image, and with the br tag exactly the last HH
rows and last WW columns, both deterministic slices of the exact input
values.  The crop dimensions are positive, per the data model of the spec;
on the br branch a zero dimension would change the meaning of the negative
slice endpoint. -/
theorem claim6_fixed_crops_corners (X : Batch) (N C H W HH WW : ℕ)
    (hS : hasShape X N C H W) (h1 : 1 ≤ HH) (h2 : HH ≤ H) (h3 : 1 ≤ WW) (h4 : WW ≤ W) :
    fixed_crops X HH WW ("ul") = Except.ok
      (X.map (fun img => img.map (fun ch => (ch.take HH).map (fun row => row.take WW)))) ∧
    fixed_crops X HH WW ("br") = Except.ok
      (X.map (fun img => img.map (fun ch =>
        (ch.drop (H - HH)).map (fun row => row.drop (W - WW))))) := by
  constructor
  · rw [fixed_crops_ul_eq]
    congr 1
    unfold sliceHW
    apply List.map_congr_left
    intro img himg
    apply List.map_congr_left
    intro ch hch
    rw [pySlice_prefix_eq]
    apply List.map_congr_left
    intro row hrowm
    rw [pySlice_prefix_eq]
  · rw [fixed_crops_br_eq]
    congr 1
    unfold sliceHW
    apply List.map_congr_left
    intro img himg
    apply List.map_congr_left
    intro ch hch
    obtain ⟨hchH, hrows⟩ := (hS.2 img himg).2 ch hch
    rw [pySlice_neg_suffix h1 (by rw [hchH]; omega), hchH]
    apply List.map_congr_left
    intro row hrowm
    have hrW : row.length = W := hrows row ((List.drop_sublist _ _).subset hrowm)
    rw [pySlice_neg_suffix h3 (by rw [hrW]; omega), hrW]

/-- Witness for claim C6 at the full-size crop of a (1, 1, 2, 2) batch. -/
theorem claim6_witness :
    fixed_crops B1 2 2 ("ul") = Except.ok
      (B1.map (fun img => img.map (fun ch => (ch.take 2).map (fun row => row.take 2)))) ∧
    fixed_crops B1 2 2 ("br") = Except.ok
      (B1.map (fun img => img.map (fun ch =>
        (ch.drop (2 - 2)).map (fun row => row.drop (2 - 2))))) :=
  claim6_fixed_crops_corners B1 1 1 2 2 2 2 (by decide) (by decide) (by decide)
    (by decide) (by decide)

/-- Claim C10: fixed_crops validates nothing.  Every recognized tag returns
without error whatever the crop shape; with crop shape (0, 0) the br branch
slices from -0 and returns every image whole, a full axis where an empty one
was requested; and with both crop dimensions larger than the image the ul
branch silently returns the whole batch, smaller than the requested shape,
instead of an error. -/
theorem claim10_fixed_crops_no_validation :
    (∀ (X : Batch) (HH WW : ℕ) (tag : String),
      tag ∈ (["center", "ul", "ur", "bl", "br"] : List String) →
        ∃ out, fixed_crops X HH WW tag = Except.ok out) ∧
    (∀ X : Batch, fixed_crops X 0 0 ("br") = Except.ok X) ∧
    (∀ (X : Batch) (N C H W HH WW : ℕ), hasShape X N C H W → H < HH → W < WW →
      fixed_crops X HH WW ("ul") = Except.ok X) := by
  refine ⟨?_, ?_, ?_⟩
  · intro X HH WW tag htag
    simp only [List.mem_cons, List.not_mem_nil, or_false] at htag
    rcases htag with rfl | rfl | rfl | rfl | rfl
    · exact ⟨_, fixed_crops_center_eq X HH WW⟩
    · exact ⟨_, fixed_crops_ul_eq X HH WW⟩
    · exact ⟨_, fixed_crops_ur_eq X HH WW⟩
    · exact ⟨_, fixed_crops_bl_eq X HH WW⟩
    · exact ⟨_, fixed_crops_br_eq X HH WW⟩
  · intro X
    rw [fixed_crops_br_eq]
    congr 1
    exact sliceHW_neg_zero X
  · intro X N C H W HH WW hS hH hW
    rw [fixed_crops_ul_eq]
    congr 1
    unfold sliceHW
    trans X.map (fun img => img)
    · apply List.map_congr_left
      intro img himg
      trans img.map (fun ch => ch)
      · apply List.map_congr_left
        intro ch hch
        obtain ⟨hchH, hrows⟩ := (hS.2 img himg).2 ch hch
        rw [pySlice_prefix_eq, List.take_of_length_le (by rw [hchH]; omega)]
        trans ch.map (fun row => row)
        · apply List.map_congr_left
          intro row hrowm
          rw [pySlice_prefix_eq, List.take_of_length_le (by rw [hrows row hrowm]; omega)]
        · simp
      · simp
    · simp

/-- Witness for claim C10: a recognized tag with no validation, the br crop
of shape (0, 0) returning the whole batch, and the oversize ul crop
returning the whole batch. -/
theorem claim10_witness :
    (∃ out, fixed_crops B1 1 1 ("ur") = Except.ok out) ∧
    fixed_crops B1 0 0 ("br") = Except.ok B1 ∧
    fixed_crops B1 5 5 ("ul") = Except.ok B1 :=
  ⟨claim10_fixed_crops_no_validation.1 B1 1 1 ("ur") (by decide),
    claim10_fixed_crops_no_validation.2.1 B1,
    claim10_fixed_crops_no_validation.2.2 B1 1 1 2 2 5 5 (by decide) (by decide) (by decide)⟩

end DataAug
